import Mathlib

/-!
Shallow embedding of the `sully_input` text-scanning library (`src/lib.rs`).

A Rust `&str` is modelled as the list of its Unicode scalar values
(`List Char`); byte offsets are recovered through `Char.utf8Size`, so an
offset is a valid index exactly when it lands on a character boundary of
the UTF-8 encoding.  A Rust panic is modelled as the `none` branch of an
`Option` result.
-/

/-- A borrowed UTF-8 string view, modelled as its list of scalar values. -/
abbrev Str := List Char

/-- Byte length of a view (Rust `str::len`): the sum of the UTF-8 widths of
its characters. -/
def byteLen : Str → Nat
  | [] => 0
  | c :: cs => c.utf8Size + byteLen cs

/-- Rust `string.get(n..)`: the suffix starting at byte offset `n`, or `none`
when `n` is out of bounds or splits a multi-byte character. -/
def dropBytes (s : Str) (n : Nat) : Option Str :=
  if n = 0 then some s
  else
    match s with
    | [] => none
    | c :: cs => if c.utf8Size ≤ n then dropBytes cs (n - c.utf8Size) else none

/-- Rust `string.get(..n)`: the prefix of byte length `n`, or `none` when `n`
is out of bounds or splits a multi-byte character. -/
def takeBytes (s : Str) (n : Nat) : Option Str :=
  if n = 0 then some []
  else
    match s with
    | [] => none
    | c :: cs =>
      if c.utf8Size ≤ n then (takeBytes cs (n - c.utf8Size)).map (c :: ·)
      else none

/-- Rust `string.get(a..b)`: `none` when `a > b`, an offset is out of bounds,
or an offset splits a character. -/
def getRange (s : Str) (a b : Nat) : Option Str :=
  if a ≤ b then (dropBytes s a).bind (fun t => takeBytes t (b - a)) else none

/-- Rust `str::find('\n')`: byte offset of the first newline, if any. -/
def findNl : Str → Option Nat
  | [] => none
  | c :: cs => if c = '\n' then some 0 else (findNl cs).map (c.utf8Size + ·)

/-- Rust `str::rfind('\n')`: byte offset of the last newline, if any. -/
def rfindNl : Str → Option Nat
  | [] => none
  | c :: cs =>
    match rfindNl cs with
    | some i => some (c.utf8Size + i)
    | none => if c = '\n' then some 0 else none

/-- The newline count used by `Input::exact`:
`interim.chars().fold(0, |acc, c| if c == '\n' { acc + 1 } else { acc })`. -/
def countNl (s : Str) : Nat :=
  s.foldl (fun acc c => if c = '\n' then acc + 1 else acc) 0

/-- Decimal rendering of a `usize`, as produced by Rust's `format!`. -/
def natChars (n : Nat) : Str := Nat.toDigits 10 n

/-- The four pattern shapes implementing the `Exact` trait, as a closed
union: `char`, `&str`, `RangeInclusive<char>`, and `Fn(char) -> bool`. -/
inductive Exact where
  | ch : Char → Exact
  | str : Str → Exact
  | range : Char → Char → Exact
  | pred : (Char → Bool) → Exact

/-- `Exact::exact` for each impl: `char` and the predicate strip one matching
leading character (`strip_prefix`), `&str` strips a matching literal prefix,
and `RangeInclusive<char>` (`lo..=hi`) strips one leading character `c` with
`lo <= c && c <= hi`, taking `&input[c.len_utf8()..]` as the remainder. -/
def Exact.exact : Exact → Str → Option Str
  | .ch _, [] => none
  | .ch c, x :: xs => if x = c then some xs else none
  | .str p, s => if p.isPrefixOf s then some (s.drop p.length) else none
  | .range _ _, [] => none
  | .range lo hi, x :: xs => if lo ≤ x ∧ x ≤ hi then some xs else none
  | .pred _, [] => none
  | .pred f, x :: xs => if f x then some xs else none

/-- Does the pattern need at least one character of input to succeed?  Every
shape except the empty string literal does. -/
def Exact.requiresChar : Exact → Bool
  | .str [] => false
  | _ => true

/-- `Input`: the scanning cursor — the whole source buffer, a byte offset,
and the 1-based line number of that offset. -/
structure Input where
  string : Str
  index : Nat
  line : Nat
deriving DecidableEq

/-- `Input::new`: a cursor at offset 0, line 1. -/
def Input.new (string : Str) : Input := ⟨string, 0, 1⟩

/-- `Input::curr`: `self.string.get(self.index..).unwrap_or("")`; an invalid
offset yields the empty view rather than a panic. -/
def Input.curr (i : Input) : Str := (dropBytes i.string i.index).getD []

/-- `Input::exact` (the `()` component of the returned Rust pair is dropped).
The slice `&curr[..delta]` would panic on a non-boundary `delta`; that case
is proved unreachable below, so the `getD` default never fires.  Likewise the
`usize` subtraction `curr.len() - rest.len()` is proved not to underflow. -/
def Input.exact (i : Input) (e : Exact) : Option Input :=
  let curr := i.curr
  match e.exact curr with
  | none => none
  | some rest =>
    let delta := byteLen curr - byteLen rest
    let interim := (takeBytes curr delta).getD []
    some ⟨i.string, i.index + delta, i.line + countNl interim⟩

/-- The data shown by the `Debug` impl for `Input`: the offset, the line, and
the slice `&curr[..curr.len().min(15)]` — `none` models the panic raised when
byte 15 falls inside a multi-byte character. -/
def Input.debugView (i : Input) : Nat × Nat × Option Str :=
  (i.index, i.line, takeBytes i.curr (min (byteLen i.curr) 15))

/-- `Span`: a start/end byte range into the source buffer plus the 1-based
line of `start` (`end` is a Lean keyword, so that field is named `stop`). -/
structure Span where
  string : Str
  start : Nat
  stop : Nat
  line : Nat
deriving DecidableEq

/-- `Span::slice`: `self.string.get(self.start..self.end).expect("Bad span.")`;
`none` models the panic on an invalid range. -/
def Span.slice (sp : Span) : Option Str := getRange sp.string sp.start sp.stop

/-- `Span::column`: `none` models the panic of `&self.string[..self.start]`
on an invalid `start`; otherwise the result is
`self.start - (rfind of newline + 1, or 0) + 1`. -/
def Span.column (sp : Span) : Option Nat :=
  (takeBytes sp.string sp.start).map fun pre =>
    sp.start - (((rfindNl pre).map (· + 1)).getD 0) + 1

/-- `Span::error`: `none` models any panic — an invalid `start` or `end`
(the two `unwrap` calls and `column`), the excerpt slice
`&self.string[start..end]`, or the `usize` underflow of
`self.end - self.start` in the caret repeat.  Note that the source feeds
`find('\n')`'s offset, which is relative to the suffix at `self.end`, straight
into the absolute slice `&self.string[start..end]`. -/
def Span.error (sp : Span) (message : Str) : Option Str := do
  let pre ← takeBytes sp.string sp.start
  let start := ((rfindNl pre).map (· + 1)).getD 0
  let suf ← dropBytes sp.string sp.stop
  let stop := (findNl suf).getD (byteLen sp.string)
  let content ← getRange sp.string start stop
  let column ← sp.column
  if sp.start ≤ sp.stop then
    some ("[Error ".toList ++ natChars sp.line ++ [':'] ++ natChars column
      ++ "] ".toList ++ message ++ ['\n'] ++ content ++ ['\n']
      ++ List.replicate (column - 1) ' '
      ++ List.replicate (sp.stop - sp.start) '^')
  else none

/-- The cursors reachable from `Input::new(buffer)` by any finite sequence of
successful `exact` calls. -/
inductive Reachable (s : Str) : Input → Prop where
  | base : Reachable s (Input.new s)
  | step {i : Input} {e : Exact} {j : Input} :
      Reachable s i → Input.exact i e = some j → Reachable s j

theorem dropBytes_zero (s : Str) : dropBytes s 0 = some s := by
  rw [dropBytes.eq_def]
  simp

theorem dropBytes_nil (n : Nat) (h : n ≠ 0) : dropBytes [] n = none := by
  rw [dropBytes.eq_def]
  simp [h]

theorem dropBytes_cons (c : Char) (cs : Str) (n : Nat) (h : n ≠ 0) :
    dropBytes (c :: cs) n =
      if c.utf8Size ≤ n then dropBytes cs (n - c.utf8Size) else none := by
  rw [dropBytes.eq_def]
  simp [h]

theorem takeBytes_zero (s : Str) : takeBytes s 0 = some [] := by
  rw [takeBytes.eq_def]
  simp

theorem takeBytes_nil (n : Nat) (h : n ≠ 0) : takeBytes [] n = none := by
  rw [takeBytes.eq_def]
  simp [h]

theorem takeBytes_cons (c : Char) (cs : Str) (n : Nat) (h : n ≠ 0) :
    takeBytes (c :: cs) n =
      if c.utf8Size ≤ n then (takeBytes cs (n - c.utf8Size)).map (c :: ·)
      else none := by
  rw [takeBytes.eq_def]
  simp [h]

theorem byteLen_append (a b : Str) : byteLen (a ++ b) = byteLen a + byteLen b := by
  induction a with
  | nil => simp [byteLen]
  | cons c cs ih => simp [byteLen, ih]; omega

theorem countNl_shift (s : Str) (acc : Nat) :
    s.foldl (fun acc c => if c = '\n' then acc + 1 else acc) acc = acc + countNl s := by
  induction s generalizing acc with
  | nil => simp [countNl]
  | cons c cs ih =>
    simp only [countNl, List.foldl_cons]
    rw [ih, ih]
    by_cases h : c = '\n'
    · simp [h]
      omega
    · simp [h]

theorem countNl_append (a b : Str) : countNl (a ++ b) = countNl a + countNl b := by
  simp only [countNl, List.foldl_append]
  rw [countNl_shift]
  rfl

theorem dropBytes_append (a b : Str) : dropBytes (a ++ b) (byteLen a) = some b := by
  induction a with
  | nil => simp [dropBytes_zero, byteLen]
  | cons c cs ih =>
    have hpos := c.utf8Size_pos
    have hne : byteLen (c :: cs) ≠ 0 := by simp [byteLen]; omega
    have hle : c.utf8Size ≤ byteLen (c :: cs) := by simp [byteLen]
    rw [List.cons_append, dropBytes_cons _ _ _ hne, if_pos hle]
    have hsub : byteLen (c :: cs) - c.utf8Size = byteLen cs := by simp [byteLen]
    rw [hsub, ih]

theorem takeBytes_append (a b : Str) : takeBytes (a ++ b) (byteLen a) = some a := by
  induction a with
  | nil => simp [takeBytes_zero, byteLen]
  | cons c cs ih =>
    have hpos := c.utf8Size_pos
    have hne : byteLen (c :: cs) ≠ 0 := by simp [byteLen]; omega
    have hle : c.utf8Size ≤ byteLen (c :: cs) := by simp [byteLen]
    rw [List.cons_append, takeBytes_cons _ _ _ hne, if_pos hle]
    have hsub : byteLen (c :: cs) - c.utf8Size = byteLen cs := by simp [byteLen]
    rw [hsub, ih]
    rfl

theorem takeBytes_self (s : Str) : takeBytes s (byteLen s) = some s := by
  have h := takeBytes_append s []
  simpa using h

theorem dropBytes_some (s : Str) (n : Nat) (t : Str) (h : dropBytes s n = some t) :
    ∃ pre, s = pre ++ t ∧ byteLen pre = n := by
  induction s generalizing n with
  | nil =>
    by_cases h0 : n = 0
    · subst h0
      rw [dropBytes_zero] at h
      simp at h
      exact ⟨[], by simp [h], by simp [byteLen]⟩
    · rw [dropBytes_nil _ h0] at h
      exact absurd h (by simp)
  | cons c cs ih =>
    by_cases h0 : n = 0
    · subst h0
      rw [dropBytes_zero] at h
      simp at h
      exact ⟨[], by simp [h], by simp [byteLen]⟩
    · rw [dropBytes_cons _ _ _ h0] at h
      by_cases hle : c.utf8Size ≤ n
      · rw [if_pos hle] at h
        obtain ⟨pre, hpre, hlen⟩ := ih (n - c.utf8Size) h
        exact ⟨c :: pre, by simp [hpre], by simp [byteLen, hlen]; omega⟩
      · rw [if_neg hle] at h
        exact absurd h (by simp)

theorem takeBytes_some (s : Str) (n : Nat) (p : Str) (h : takeBytes s n = some p) :
    ∃ suf, s = p ++ suf ∧ byteLen p = n := by
  induction s generalizing n p with
  | nil =>
    by_cases h0 : n = 0
    · subst h0
      rw [takeBytes_zero] at h
      have hp : p = [] := by simpa using h.symm
      subst hp
      exact ⟨[], by simp, by simp [byteLen]⟩
    · rw [takeBytes_nil _ h0] at h
      exact absurd h (by simp)
  | cons c cs ih =>
    by_cases h0 : n = 0
    · subst h0
      rw [takeBytes_zero] at h
      have hp : p = [] := by simpa using h.symm
      subst hp
      exact ⟨c :: cs, by simp, by simp [byteLen]⟩
    · rw [takeBytes_cons _ _ _ h0] at h
      by_cases hle : c.utf8Size ≤ n
      · rw [if_pos hle] at h
        simp only [Option.map_eq_some'] at h
        obtain ⟨q, hq, hp⟩ := h
        obtain ⟨suf, hsuf, hlen⟩ := ih (n - c.utf8Size) q hq
        refine ⟨suf, by simp [← hp, hsuf], ?_⟩
        simp [← hp, byteLen, hlen]
        omega
      · rw [if_neg hle] at h
        exact absurd h (by simp)

theorem exact_suffix (e : Exact) (s r : Str) (h : Exact.exact e s = some r) :
    ∃ m, s = m ++ r := by
  cases e with
  | ch c =>
    cases s with
    | nil => exact absurd h (by simp [Exact.exact])
    | cons x xs =>
      simp only [Exact.exact] at h
      by_cases hx : x = c
      · simp [hx] at h; exact ⟨[x], by simp [h]⟩
      · simp [hx] at h
  | str p =>
    simp only [Exact.exact] at h
    by_cases hp : p.isPrefixOf s
    · simp only [hp, if_true, Option.some_inj] at h
      obtain ⟨t, ht⟩ := List.isPrefixOf_iff_prefix.mp hp
      refine ⟨p, ?_⟩
      rw [← ht] at h ⊢
      rw [List.drop_left] at h
      rw [h]
    · simp [hp] at h
  | range lo hi =>
    cases s with
    | nil => exact absurd h (by simp [Exact.exact])
    | cons x xs =>
      simp only [Exact.exact] at h
      by_cases hx : lo ≤ x ∧ x ≤ hi
      · simp [hx] at h; exact ⟨[x], by simp [h]⟩
      · simp [hx] at h
  | pred f =>
    cases s with
    | nil => exact absurd h (by simp [Exact.exact])
    | cons x xs =>
      simp only [Exact.exact] at h
      by_cases hx : f x
      · simp [hx] at h; exact ⟨[x], by simp [h]⟩
      · simp [hx] at h

theorem exact_spec (i : Input) (e : Exact) (j : Input)
    (h : Input.exact i e = some j) :
    ∃ m r, Exact.exact e i.curr = some r ∧ i.curr = m ++ r ∧
      j = ⟨i.string, i.index + byteLen m, i.line + countNl m⟩ := by
  cases he : Exact.exact e i.curr with
  | none => simp [Input.exact, he] at h
  | some rest =>
    simp only [Input.exact, he, Option.some_inj] at h
    obtain ⟨m, hm⟩ := exact_suffix e i.curr rest he
    have hdelta : byteLen i.curr - byteLen rest = byteLen m := by
      rw [hm, byteLen_append]; omega
    have htake : takeBytes i.curr (byteLen i.curr - byteLen rest) = some m := by
      rw [hdelta, hm, takeBytes_append]
    refine ⟨m, rest, rfl, hm, ?_⟩
    rw [← h, htake, hdelta]
    rfl

theorem byteLen_eq_zero (s : Str) (h : byteLen s = 0) : s = [] := by
  cases s with
  | nil => rfl
  | cons c cs =>
    have hpos := c.utf8Size_pos
    simp [byteLen] at h
    omega

theorem rfindNl_le (s : Str) (j : Nat) (h : rfindNl s = some j) :
    j + 1 ≤ byteLen s := by
  induction s generalizing j with
  | nil => simp [rfindNl] at h
  | cons c cs ih =>
    have hpos := c.utf8Size_pos
    simp only [rfindNl] at h
    cases hr : rfindNl cs with
    | some i =>
      rw [hr] at h
      simp only [Option.some_inj] at h
      have hi := ih i hr
      simp only [byteLen]
      omega
    | none =>
      rw [hr] at h
      by_cases hc : c = '\n'
      · rw [if_pos hc] at h
        have hj : j = 0 := by simpa using h.symm
        subst hj
        simp only [byteLen]
        omega
      · simp [hc] at h

theorem rfindNl_concat (q : Str) : rfindNl (q ++ ['\n']) = some (byteLen q) := by
  induction q with
  | nil => simp [rfindNl, byteLen]
  | cons c cs ih =>
    have h1 : rfindNl (c :: (cs ++ ['\n'])) =
        match rfindNl (cs ++ ['\n']) with
        | some i => some (c.utf8Size + i)
        | none => if c = '\n' then some 0 else none := rfl
    rw [List.cons_append, h1, ih]
    simp [byteLen]

/-- C1: the spec's worked example panics instead of yielding the claimed
three-line diagnostic.  `Span::error` computes the excerpt end as
`self.string.get(self.end..).unwrap().find('\n')`, an offset relative to the
suffix at `end` (here 0), and uses it as an absolute offset in
`&self.string[start..end]`, slicing `string[5..0]` — a panic, modelled as
`none`. -/
theorem error_spec_example_panics :
    Span.error ⟨"word\nword\nword".toList, 5, 9, 2⟩ ("bad token".toList) =
      none := by decide

/-- C2: every cursor reachable from `Input::new(buffer)` by successful
`exact` calls has a valid boundary offset, and its `line` field equals
1 plus the number of newline characters in `buffer[0..index]`. -/
theorem reachable_line_invariant (s : Str) (i : Input) (h : Reachable s i) :
    i.string = s ∧ ∃ pre, takeBytes s i.index = some pre ∧
      i.line = 1 + countNl pre := by
  induction h with
  | base =>
    refine ⟨rfl, [], takeBytes_zero s, ?_⟩
    simp [Input.new, countNl]
  | step hre hex ih =>
    obtain ⟨hstr, pre, htake, hline⟩ := ih
    obtain ⟨m, r, hmatch, hcurr, hj⟩ := exact_spec _ _ _ hex
    obtain ⟨suf, hs, hpl⟩ := takeBytes_some _ _ _ htake
    subst hj
    rename_i i e
    have hdrop : dropBytes s i.index = some suf := by
      rw [hs, ← hpl]
      exact dropBytes_append pre suf
    have hcurr2 : i.curr = suf := by
      simp [Input.curr, hstr, hdrop]
    have hsmr : s = (pre ++ m) ++ r := by
      rw [hs, ← hcurr2, hcurr]
      simp
    refine ⟨hstr, pre ++ m, ?_, ?_⟩
    · have hlen : byteLen (pre ++ m) = i.index + byteLen m := by
        rw [byteLen_append, hpl]
      show takeBytes s (i.index + byteLen m) = some (pre ++ m)
      rw [← hlen, hsmr, takeBytes_append]
    · show i.line + countNl m = 1 + countNl (pre ++ m)
      rw [countNl_append, hline]
      omega

/-- Witness for C2 at the cursor reached on buffer `"a\nb"` by matching the
string pattern `"a\n"`: offset 2, line 2. -/
theorem reachable_line_invariant_witness :
    (Input.mk ("a\nb".toList) 2 2).string = "a\nb".toList ∧
    ∃ pre, takeBytes ("a\nb".toList) 2 = some pre ∧
      2 = 1 + countNl pre :=
  reachable_line_invariant ("a\nb".toList) (Input.mk ("a\nb".toList) 2 2)
    (@Reachable.step ("a\nb".toList) (Input.new ("a\nb".toList))
      (Exact.str ("a\n".toList)) (Input.mk ("a\nb".toList) 2 2)
      Reachable.base (by decide))

/-- C3: `exact` is all-or-nothing: failure returns `none` (and, the cursor
being an immutable value, no position change is observable); success keeps
the buffer and advances monotonically, the offset moving by exactly the
byte length of the prefix consumed from the remaining view. -/
theorem exact_all_or_nothing (i : Input) (e : Exact) (j : Input)
    (h : Input.exact i e = some j) :
    j.string = i.string ∧ i.index ≤ j.index ∧ i.line ≤ j.line ∧
    ∃ m r, Exact.exact e i.curr = some r ∧ i.curr = m ++ r ∧
      j.index = i.index + byteLen m := by
  obtain ⟨m, r, he, hm, hj⟩ := exact_spec i e j h
  subst hj
  exact ⟨rfl, Nat.le_add_right _ _, Nat.le_add_right _ _, m, r, he, hm, rfl⟩

/-- Witness for C3: matching the character `'H'` on `"Hello"` advances the
offset from 0 to 1 on the same buffer. -/
theorem exact_all_or_nothing_witness :
    (Input.mk ("Hello".toList) 1 1).string = (Input.new ("Hello".toList)).string ∧
    (Input.new ("Hello".toList)).index ≤ (Input.mk ("Hello".toList) 1 1).index ∧
    (Input.new ("Hello".toList)).line ≤ (Input.mk ("Hello".toList) 1 1).line ∧
    ∃ m r, Exact.exact (Exact.ch 'H') (Input.new ("Hello".toList)).curr = some r ∧
      (Input.new ("Hello".toList)).curr = m ++ r ∧
      (Input.mk ("Hello".toList) 1 1).index =
        (Input.new ("Hello".toList)).index + byteLen m :=
  exact_all_or_nothing (Input.new ("Hello".toList)) (Exact.ch 'H')
    (Input.mk ("Hello".toList) 1 1) (by decide)

/-- C4: when `before.exact(p)` succeeds at a valid offset, the `Span` built
over the same buffer from the before/after offsets slices to exactly the
text consumed by the match — the prefix of the remaining view of byte
length `after.index - before.index`. -/
theorem exact_span_roundtrip (i : Input) (e : Exact) (j : Input)
    (hv : (dropBytes i.string i.index).isSome = true)
    (h : Input.exact i e = some j) :
    ∃ m r, Exact.exact e i.curr = some r ∧ i.curr = m ++ r ∧
      Span.slice ⟨i.string, i.index, j.index, i.line⟩ = some m ∧
      takeBytes i.curr (j.index - i.index) = some m := by
  obtain ⟨m, r, he, hm, hj⟩ := exact_spec i e j h
  obtain ⟨suf, hsuf⟩ := Option.isSome_iff_exists.mp hv
  have hcurr : i.curr = suf := by simp [Input.curr, hsuf]
  subst hj
  have hsub : i.index + byteLen m - i.index = byteLen m := by omega
  refine ⟨m, r, he, hm, ?_, ?_⟩
  · show getRange i.string i.index (i.index + byteLen m) = some m
    rw [getRange, if_pos (Nat.le_add_right _ _), hsuf]
    show takeBytes suf (i.index + byteLen m - i.index) = some m
    rw [hsub, ← hcurr, hm, takeBytes_append]
  · show takeBytes i.curr (i.index + byteLen m - i.index) = some m
    rw [hsub, hm, takeBytes_append]

/-- Witness for C4: matching `"Hello"` on `"Hello"` and spanning offsets 0
to 5 slices back exactly the consumed text. -/
theorem exact_span_roundtrip_witness :
    ∃ m r, Exact.exact (Exact.str ("Hello".toList))
        (Input.new ("Hello".toList)).curr = some r ∧
      (Input.new ("Hello".toList)).curr = m ++ r ∧
      Span.slice ⟨"Hello".toList, (Input.new ("Hello".toList)).index,
        (Input.mk ("Hello".toList) 5 1).index,
        (Input.new ("Hello".toList)).line⟩ = some m ∧
      takeBytes (Input.new ("Hello".toList)).curr
        ((Input.mk ("Hello".toList) 5 1).index -
          (Input.new ("Hello".toList)).index) = some m :=
  exact_span_roundtrip (Input.new ("Hello".toList)) (Exact.str ("Hello".toList))
    (Input.mk ("Hello".toList) 5 1) (by decide) (by decide)

/-- C5: the inclusive-range pattern fails on the empty view, and otherwise
succeeds exactly when the first character lies in the closed range
`[lo, hi]`, the remainder being the view minus that character's encoded
width. -/
theorem range_exact_spec (lo hi : Char) :
    Exact.exact (.range lo hi) [] = none ∧
    ∀ v r : Str, Exact.exact (.range lo hi) v = some r ↔
      ∃ c cs, v = c :: cs ∧ lo ≤ c ∧ c ≤ hi ∧ r = cs ∧
        dropBytes v c.utf8Size = some r := by
  refine ⟨rfl, fun v r => ⟨?_, ?_⟩⟩
  · intro h
    cases v with
    | nil => exact absurd h (by simp [Exact.exact])
    | cons c cs =>
      simp only [Exact.exact] at h
      by_cases hc : lo ≤ c ∧ c ≤ hi
      · rw [if_pos hc] at h
        have hr : r = cs := by simpa using h.symm
        have hpos := c.utf8Size_pos
        refine ⟨c, cs, rfl, hc.1, hc.2, hr, ?_⟩
        rw [dropBytes_cons _ _ _ (by omega), if_pos le_rfl, Nat.sub_self,
          dropBytes_zero, hr]
      · rw [if_neg hc] at h
        exact absurd h (by simp)
  · rintro ⟨c, cs, rfl, h1, h2, rfl, hd⟩
    simp [Exact.exact, h1, h2]

/-- Witness for C5: matching `'0'..='9'` on `"5x"` consumes the digit and
leaves `"x"`. -/
theorem range_exact_spec_witness :
    Exact.exact (Exact.range '0' '9') ("5x".toList) = some ("x".toList) :=
  ((range_exact_spec '0' '9').2 ("5x".toList) ("x".toList)).mpr
    ⟨'5', "x".toList, by decide, by decide, by decide, by decide, by decide⟩

/-- C6: at a valid boundary `start`, `column` returns `start` minus the byte
offset just after the nearest preceding newline (0 when none) plus 1; that
offset never exceeds `start`, so the column is always at least 1, and it is
exactly 1 when `start` is 0 or immediately follows a newline. -/
theorem column_spec (sp : Span) (pre : Str)
    (h : takeBytes sp.string sp.start = some pre) :
    ∃ c, Span.column sp = some c ∧
      c = sp.start - (((rfindNl pre).map (· + 1)).getD 0) + 1 ∧
      (((rfindNl pre).map (· + 1)).getD 0) ≤ sp.start ∧
      1 ≤ c ∧
      (sp.start = 0 → c = 1) ∧
      (∀ q, pre = q ++ ['\n'] → c = 1) := by
  obtain ⟨suf, hsuf, hlen⟩ := takeBytes_some _ _ _ h
  have hcol : Span.column sp =
      some (sp.start - (((rfindNl pre).map (· + 1)).getD 0) + 1) := by
    rw [Span.column, h]
    rfl
  have hle : (((rfindNl pre).map (· + 1)).getD 0) ≤ sp.start := by
    cases hr : rfindNl pre with
    | none => simp
    | some jj =>
      have hb := rfindNl_le pre jj hr
      simp only [Option.map_some', Option.getD_some]
      omega
  refine ⟨_, hcol, rfl, hle, Nat.le_add_left _ _, ?_, ?_⟩
  · intro h0
    have hpre : pre = [] := byteLen_eq_zero pre (by omega)
    subst hpre
    simp [rfindNl, h0]
  · intro q hq
    subst hq
    rw [rfindNl_concat]
    have hnl : byteLen (q ++ ['\n']) = byteLen q + 1 := by
      rw [byteLen_append]
      rfl
    simp only [Option.map_some', Option.getD_some]
    omega

/-- Witness for C6: on the buffer `"a\nbc"` with `start = 2` (right after
the newline) the column is 1. -/
theorem column_spec_witness :
    ∃ c, Span.column ⟨"a\nbc".toList, 2, 4, 2⟩ = some c ∧
      c = 2 - (((rfindNl ("a\n".toList)).map (· + 1)).getD 0) + 1 ∧
      (((rfindNl ("a\n".toList)).map (· + 1)).getD 0) ≤ 2 ∧
      1 ≤ c ∧
      ((2 : Nat) = 0 → c = 1) ∧
      (∀ q, "a\n".toList = q ++ ['\n'] → c = 1) :=
  column_spec ⟨"a\nbc".toList, 2, 4, 2⟩ ("a\n".toList) (by decide)

/-- C7: `slice` returns some text exactly when the offsets decompose the
buffer at character boundaries with `start ≤ end ≤ length`, in which case
the text is byte-for-byte the substring between them; in every other case
it panics (modelled `none`). -/
theorem slice_spec (sp : Span) :
    (∀ m, Span.slice sp = some m ↔
      ∃ pre suf, sp.string = pre ++ m ++ suf ∧ sp.start = byteLen pre ∧
        sp.stop = sp.start + byteLen m) ∧
    (Span.slice sp = none ↔
      ¬ ∃ m pre suf, sp.string = pre ++ m ++ suf ∧ sp.start = byteLen pre ∧
        sp.stop = sp.start + byteLen m) := by
  have hfwd : ∀ m, Span.slice sp = some m →
      ∃ pre suf, sp.string = pre ++ m ++ suf ∧ sp.start = byteLen pre ∧
        sp.stop = sp.start + byteLen m := by
    intro m hsl
    rw [Span.slice, getRange] at hsl
    by_cases hab : sp.start ≤ sp.stop
    · rw [if_pos hab] at hsl
      cases hd : dropBytes sp.string sp.start with
      | none => rw [hd] at hsl; exact absurd hsl (by simp)
      | some t =>
        rw [hd] at hsl
        simp only [Option.some_bind] at hsl
        obtain ⟨pre, hpre, hplen⟩ := dropBytes_some _ _ _ hd
        obtain ⟨suf, hsuf, hmlen⟩ := takeBytes_some _ _ _ hsl
        refine ⟨pre, suf, ?_, hplen.symm, by omega⟩
        rw [hpre, hsuf, List.append_assoc]
    · rw [if_neg hab] at hsl
      exact absurd hsl (by simp)
  have hbwd : ∀ m,
      (∃ pre suf, sp.string = pre ++ m ++ suf ∧ sp.start = byteLen pre ∧
        sp.stop = sp.start + byteLen m) → Span.slice sp = some m := by
    rintro m ⟨pre, suf, hstr, h1, h2⟩
    rw [Span.slice, getRange, if_pos (by omega)]
    have hd : dropBytes sp.string sp.start = some (m ++ suf) := by
      rw [hstr, List.append_assoc, h1]
      exact dropBytes_append pre (m ++ suf)
    rw [hd]
    simp only [Option.some_bind]
    have hsub : sp.stop - sp.start = byteLen m := by omega
    rw [hsub]
    exact takeBytes_append m suf
  refine ⟨fun m => ⟨hfwd m, hbwd m⟩, ?_, ?_⟩
  · intro hn hex
    obtain ⟨m, pre, suf, hm⟩ := hex
    rw [hbwd m ⟨pre, suf, hm⟩] at hn
    exact absurd hn (by simp)
  · intro hnex
    cases ho : Span.slice sp with
    | none => rfl
    | some m =>
      obtain ⟨pre, suf, hm⟩ := hfwd m ho
      exact absurd ⟨m, pre, suf, hm⟩ hnex

/-- Witness for C7: on `"word\nword\nword"` the span 5..9 slices to the
second `"word"`. -/
theorem slice_spec_witness :
    Span.slice ⟨"word\nword\nword".toList, 5, 9, 2⟩ = some ("word".toList) :=
  ((slice_spec ⟨"word\nword\nword".toList, 5, 9, 2⟩).1 ("word".toList)).mpr
    ⟨"word\n".toList, "\nword".toList, by decide, by decide, by decide⟩

/-- C8 counterexample: the debug rendering does not show the next up-to-15
characters.  On a buffer of eight two-byte characters the remaining view has
only 8 characters but 16 bytes; the code slices the first 15 bytes, which
splits the eighth character, so the rendering panics (the slice is `none`)
instead of showing all eight characters. -/
theorem debugView_chars_counterexample :
    (Input.debugView ⟨List.replicate 8 'é', 0, 1⟩).2.2 = none ∧
    (Input.debugView ⟨List.replicate 8 'é', 0, 1⟩).2.2 ≠
      some ((List.replicate 8 'é').take 15) := by decide

/-- C8 (amended): for every cursor, the debug rendering shows the offset,
the line, and the prefix of the first `min(view length, 15)` BYTES — not
characters — of the remaining view: the shown slice is `some p` exactly when
the view decomposes as `p ++ q` with `byteLen p` that byte count (so a view
of at most 15 bytes is shown whole, and a longer one is truncated to 15
bytes), and it is `none` — a panic — exactly when no such boundary
decomposition exists, that is, when byte 15 splits a character. -/
theorem debugView_spec (i : Input) :
    (Input.debugView i).1 = i.index ∧
    (Input.debugView i).2.1 = i.line ∧
    (∀ p, (Input.debugView i).2.2 = some p ↔
      ∃ q, i.curr = p ++ q ∧ byteLen p = min (byteLen i.curr) 15) ∧
    ((Input.debugView i).2.2 = none ↔
      ¬ ∃ p q, i.curr = p ++ q ∧ byteLen p = min (byteLen i.curr) 15) := by
  have hfwd : ∀ p, (Input.debugView i).2.2 = some p →
      ∃ q, i.curr = p ++ q ∧ byteLen p = min (byteLen i.curr) 15 := by
    intro p hp
    rw [Input.debugView] at hp
    obtain ⟨q, hq, hlen⟩ := takeBytes_some _ _ _ hp
    exact ⟨q, hq, hlen⟩
  have hbwd : ∀ p,
      (∃ q, i.curr = p ++ q ∧ byteLen p = min (byteLen i.curr) 15) →
      (Input.debugView i).2.2 = some p := by
    rintro p ⟨q, hq, hlen⟩
    rw [Input.debugView]
    show takeBytes i.curr (min (byteLen i.curr) 15) = some p
    rw [← hlen, hq, takeBytes_append]
  refine ⟨rfl, rfl, fun p => ⟨hfwd p, hbwd p⟩, ?_, ?_⟩
  · intro hn hex
    obtain ⟨p, q, hpq⟩ := hex
    rw [hbwd p ⟨q, hpq⟩] at hn
    exact absurd hn (by simp)
  · intro hnex
    cases ho : (Input.debugView i).2.2 with
    | none => rfl
    | some p =>
      obtain ⟨q, hq⟩ := hfwd p ho
      exact absurd ⟨p, q, hq⟩ hnex

/-- Witness for C8: the cursor at offset 5, line 2 of `"word\nword\nword"`
shows its whole 9-byte remaining view `"word\nword"`, and a cursor over a
20-byte ASCII view of ten `'a'` and ten `'b'` shows exactly the first 15
bytes. -/
theorem debugView_spec_witness :
    (Input.debugView ⟨"word\nword\nword".toList, 5, 2⟩).2.2 =
      some ("word\nword".toList) ∧
    (Input.debugView ⟨List.replicate 10 'a' ++ List.replicate 10 'b', 0, 1⟩).2.2 =
      some (List.replicate 10 'a' ++ List.replicate 5 'b') :=
  ⟨((debugView_spec ⟨"word\nword\nword".toList, 5, 2⟩).2.2.1
      ("word\nword".toList)).mpr ⟨[], by decide, by decide⟩,
   ((debugView_spec ⟨List.replicate 10 'a' ++ List.replicate 10 'b', 0, 1⟩).2.2.1
      (List.replicate 10 'a' ++ List.replicate 5 'b')).mpr
      ⟨List.replicate 5 'b', by decide, by decide⟩⟩

/-- C9: a successful match of any of the four pattern shapes returns a
suffix of the view: the remainder is never longer than the view, so the
`usize` subtraction `curr.len() - rest.len()` in `Input::exact` cannot
underflow, and the consumed prefix `curr[..delta]` is a well-defined
boundary slice. -/
theorem exact_suffix_safe (e : Exact) (v r : Str)
    (h : Exact.exact e v = some r) :
    ∃ m, v = m ++ r ∧ byteLen r ≤ byteLen v ∧
      takeBytes v (byteLen v - byteLen r) = some m := by
  obtain ⟨m, hm⟩ := exact_suffix e v r h
  have hsub : byteLen v - byteLen r = byteLen m := by
    rw [hm, byteLen_append]
    omega
  refine ⟨m, hm, ?_, ?_⟩
  · rw [hm, byteLen_append]
    omega
  · rw [hsub, hm, takeBytes_append]

/-- Witness for C9: matching the string `"He"` on the view `"Hello"` leaves
the suffix `"llo"`, three bytes shorter, and the consumed slice is the
well-defined prefix `"He"`. -/
theorem exact_suffix_safe_witness :
    ∃ m, "Hello".toList = m ++ "llo".toList ∧
      byteLen ("llo".toList) ≤ byteLen ("Hello".toList) ∧
      takeBytes ("Hello".toList)
        (byteLen ("Hello".toList) - byteLen ("llo".toList)) = some m :=
  exact_suffix_safe (Exact.str ("He".toList)) ("Hello".toList)
    ("llo".toList) (by decide)

/-- C10: `exact` never panics, whatever the cursor's offset: on a successful
match the interim slice is well-defined, and at an invalid offset (out of
bounds or inside a multi-byte character) the remaining view defaults to the
empty string, so every pattern that needs at least one character simply
returns `none` there. -/
theorem exact_total_safe (i : Input) (e : Exact) :
    (∀ r, Exact.exact e i.curr = some r →
      (takeBytes i.curr (byteLen i.curr - byteLen r)).isSome = true) ∧
    (dropBytes i.string i.index = none → Exact.requiresChar e = true →
      Input.exact i e = none) := by
  constructor
  · intro r h
    obtain ⟨m, hm⟩ := exact_suffix e i.curr r h
    have hsub : byteLen i.curr - byteLen r = byteLen m := by
      rw [hm, byteLen_append]
      omega
    rw [hsub, hm, takeBytes_append]
    rfl
  · intro hd hreq
    have hcurr : i.curr = [] := by simp [Input.curr, hd]
    have hnone : Exact.exact e i.curr = none := by
      rw [hcurr]
      cases e with
      | ch c => rfl
      | str p =>
        cases p with
        | nil => simp [Exact.requiresChar] at hreq
        | cons c cs => simp [Exact.exact]
      | range lo hi => rfl
      | pred f => rfl
    simp [Input.exact, hnone]

/-- Witness for C10: a cursor whose offset 1 falls inside the two-byte
character of the buffer `"é"` still fails cleanly when matching `'x'`. -/
theorem exact_total_safe_witness :
    Input.exact ⟨"é".toList, 1, 1⟩ (Exact.ch 'x') = none :=
  (exact_total_safe ⟨"é".toList, 1, 1⟩ (Exact.ch 'x')).2 (by decide) (by decide)
